import Mathlib

/-!
Verification of the HyLoRD core against its specification.

The definitions below are shallow embeddings of the C++ sources:
byte buffers become `List Char`, `std::vector` becomes `List`,
`double` becomes `ℚ` (exact arithmetic idealisation), Eigen vectors and
matrices become `Fin`-indexed functions / `Matrix`, and exceptions become
`Option`/`Except` results.
-/

namespace HyLoRD

/-! ## Ingestion engine (`src/io/TSVFileReader.hpp`)

`TSVFileReader::processChunk(start, end)` walks the byte range
`[start, end)`: it repeatedly finds the next `'\n'` (or the end of the
range), takes the bytes before it as one line, and continues one byte
past the newline.  `linesOf` is that loop expressed on the chunk's
contents (the list of bytes in `[start, end)`).
-/

/-- The sequence of lines `processChunk` extracts from a chunk's bytes:
split at each `'\n'`; a final segment without a trailing newline is still
a line; an empty chunk yields no lines. -/
def linesOf : List Char → List (List Char)
  | [] => []
  | c :: cs =>
    if c = '\n' then [] :: linesOf cs
    else
      match linesOf cs with
      | [] => [[c]]
      | l :: ls => (c :: l) :: ls

/-- Proof helper: split at each `'\n'`, always emitting the (possibly
empty) final segment, so that `splitNl` treats the end of the input as a
line terminator.  Used to relate `linesOf` across a chunk boundary. -/
def splitNl : List Char → List (List Char)
  | [] => [[]]
  | c :: cs =>
    if c = '\n' then [] :: splitNl cs
    else
      match splitNl cs with
      | [] => [[c]]
      | l :: ls => (c :: l) :: ls

/-- The bytes of the half-open range `[s, e)` of the mapped file `f`
(`processChunk`'s `start`/`end` pointers become indices into `f`). -/
def slice (f : List Char) (s e : Nat) : List Char :=
  (f.drop s).take (e - s)

/-- Index of the first `'\n'` in a byte list (its length if none),
mirroring `memchr(p, '\n', len)`. -/
def findNlIdx : List Char → Nat
  | [] => 0
  | c :: cs => if c = '\n' then 0 else findNlIdx cs + 1

/-- Position of the first `'\n'` at or after position `p` in `f`
(`f.length` if none exists). -/
def findNl (f : List Char) (p : Nat) : Nat :=
  p + findNlIdx (f.drop p)

/-- Idealised boundary snapping for a non-negative chunk size (the
proof-internal description of `findChunkEnd` on its in-bounds domain):
the candidate boundary `s + size` is returned as `file_end` if it
reaches past the file; otherwise it is snapped forward to the next
newline (or `file_end` if no newline follows). -/
def findChunkEndNat (f : List Char) (s size : Nat) : Nat :=
  if f.length ≤ s + size then f.length else findNl f (s + size)

/-- Idealised chunk ranges for a non-negative chunk size: `threads`
ranges, each starting one past the previous range's end; every boundary
except the last is snapped by `findChunkEndNat`; the final range always
ends at `file_end`. -/
def chunkRangesNat (f : List Char) (size : Nat) : Nat → Nat → List (Nat × Nat)
  | 0, _ => []
  | 1, cur => [(cur, f.length)]
  | threads + 2, cur =>
    (cur, findChunkEndNat f cur size) ::
      chunkRangesNat f size (threads + 1) (findChunkEndNat f cur size + 1)

/-- The C++ `static_cast<int>` applied to the 64-bit `m_file_size`: the
value wrapped into the signed 32-bit range (two's complement), negative
for file sizes in `[2^31, 2^32)`. -/
def intCast32 (n : Nat) : Int := ((n + 2 ^ 31) % 2 ^ 32 : Nat) - 2 ^ 31

/-- `TSVFileReader::findChunkEnd(start, size)`, with the source's
`int`-typed `size` parameter (the caller computes it from a wrapped
cast, so it can be negative).  The candidate boundary `start + size` is
compared with `file_end` as an address; when it has not reached
`file_end`, `memchr` scans `[start + size, file_end)` for a newline — a
candidate that precedes the mapping makes that read out of bounds (a
crash), modelled as `none`. -/
def findChunkEnd (f : List Char) (s : Nat) (size : Int) : Option Nat :=
  if (f.length : Int) ≤ (s : Int) + size then some f.length
  else if (s : Int) + size < 0 then none
  else some (findNl f ((s : Int) + size).toNat)

/-- The chunk ranges built by `TSVFileReader::processFile`: `threads`
ranges, each starting one past the previous range's end; every boundary
except the last is produced by `findChunkEnd` (whose crash propagates);
the final range always ends at `file_end`. -/
def chunkRanges (f : List Char) (size : Int) :
    Nat → Nat → Option (List (Nat × Nat))
  | 0, _ => some []
  | 1, cur => some [(cur, f.length)]
  | threads + 2, cur =>
    match findChunkEnd f cur size with
    | none => none
    | some e =>
      (chunkRanges f size (threads + 1) (e + 1)).map
        (fun rest => (cur, e) :: rest)

/-- `TSVFileReader::processChunk(start, end)`: scan the byte range for
lines and convert each line to a record.  `parse` abstracts the whole
per-line pipeline (field splitting, column projection, row filter and
`RecordType::fromFields`); a line whose conversion throws is skipped
(`parse` returns `none`, the line only adds a warning). -/
def processChunk {R : Type} (parse : List Char → Option R)
    (f : List Char) (s e : Nat) : List R :=
  (linesOf (slice f s e)).filterMap parse

/-- `TSVFileReader::processFile` followed by the reassembly loop in
`load()`: chunk `i` of `threads` is parsed independently and the chunk
results are concatenated by chunk index (not completion order), so the
model concatenates them in range order.  `chunk_size` is
`static_cast<int>(m_file_size) / m_num_threads` in C++ `int` arithmetic
(division truncating toward zero on the wrapped 32-bit file size).  The
result is `none` when a boundary computation crashes. -/
def processFile {R : Type} (parse : List Char → Option R)
    (f : List Char) (threads : Nat) : Option (List R) :=
  (chunkRanges f ((intCast32 f.length).tdiv (threads : Int)) threads 0).map
    (fun rs => (rs.map (fun r => processChunk parse f r.1 r.2)).flatten)

/-! ## Genomic keys and interval alignment (`src/data/BedData.hpp`)

All alignment operations compare records through
`std::tie(chromosome, start, name)`: lexicographic on
(chromosome, start position, mark character). -/

/-- The comparison key of a BED record: `(chromosome, start, name)` as
used by `std::tie` in `findOverLappingIndexes` and
`findIndexesInCpGList`. -/
structure GenomicKey where
  chromosome : Int
  start : Int
  name : Char
deriving DecidableEq, Repr

/-- Lexicographic strict order on keys, as computed by comparison of
`std::tie(chromosome, start, name)` tuples. -/
def keyLt (a b : GenomicKey) : Prop :=
  a.chromosome < b.chromosome ∨
    (a.chromosome = b.chromosome ∧
      (a.start < b.start ∨ (a.start = b.start ∧ a.name < b.name)))

instance (a b : GenomicKey) : Decidable (keyLt a b) := by
  unfold keyLt; infer_instance

/-- Non-strict key order (for stating sortedness of inputs). -/
def keyLe (a b : GenomicKey) : Prop := keyLt a b ∨ a = b

instance (a b : GenomicKey) : Decidable (keyLe a b) := by
  unfold keyLe; infer_instance

/-- The two-pointer loop of `findOverLappingIndexes`, with explicit fuel
(each iteration consumes one element of one or both lists, so
`one.length + two.length` fuel always suffices).  `i`/`j` are the
current indices `bed_one_row`/`bed_two_row`; on equal keys both indices
are recorded and both cursors advance, otherwise the cursor at the
smaller key advances. -/
def twoPointerF : Nat → List GenomicKey → List GenomicKey → Nat → Nat →
    List Nat × List Nat
  | 0, _, _, _, _ => ([], [])
  | _ + 1, [], _, _, _ => ([], [])
  | _ + 1, _ :: _, [], _, _ => ([], [])
  | fuel + 1, a :: as, b :: bs, i, j =>
    if a = b then
      let rest := twoPointerF fuel as bs (i + 1) (j + 1)
      (i :: rest.1, j :: rest.2)
    else if keyLt a b then twoPointerF fuel as (b :: bs) (i + 1) j
    else twoPointerF fuel (a :: as) bs i (j + 1)

/-- `BedData::findOverLappingIndexes(bed_one, bed_two)`, on the key
sequences of the two collections. -/
def findOverLappingIndexes (one two : List GenomicKey) :
    List Nat × List Nat :=
  twoPointerF (one.length + two.length) one two 0 0

/-- Default-constructed `BedRecords::Bed` key (`chromosome{1}`, zero
start, zero name); only used to totalise out-of-range indexing, which
in-contract binary searches never perform. -/
def junkKey : GenomicKey := ⟨1, 0, Char.ofNat 0⟩

/-- The binary-search loop body of `findIndexesInCpGList` for one
allow-list entry, with explicit fuel (the search window shrinks by at
least one each iteration, so `entries.length + 1` always suffices).
`low`/`high` are the signed `RowIndex` cursors; `mid` is
`std::midpoint(low, high)` which for `low ≤ high` is
`low + (high - low) / 2`. -/
def binSearchF (entries : List GenomicKey) (key : GenomicKey) :
    Nat → Int → Int → Option Nat
  | 0, _, _ => none
  | fuel + 1, low, high =>
    if low ≤ high then
      let mid : Int := low + (high - low) / 2
      let rowKey := entries.getD mid.toNat junkKey
      if rowKey = key then some mid.toNat
      else if keyLt rowKey key then binSearchF entries key fuel (mid + 1) high
      else binSearchF entries key fuel low (mid - 1)
    else none

/-- One allow-list entry's binary search over `bed_entries`:
`low` starts at `0`, `high` at `size() - 1` (which is `-1` for an empty
collection, after the unsigned-to-signed conversion of the source). -/
def binSearch (entries : List GenomicKey) (key : GenomicKey) : Option Nat :=
  binSearchF entries key (entries.length + 1) 0 ((entries.length : Int) - 1)

/-- `BedData::findIndexesInCpGList(cpg_list, bed_entries)`: collect, in
allow-list order, the matching index for each allow-list entry whose
binary search succeeds; throw "No row overlap with cpg_list." when no
entry at all matched. -/
def findIndexesInCpGList (cpgs entries : List GenomicKey) :
    Except String (List Nat) :=
  let idxs := cpgs.filterMap (fun c => binSearch entries c)
  if idxs.isEmpty then Except.error "No row overlap with cpg_list."
  else Except.ok idxs

/-! ## Column projection (`TSVFileReader::processChunk`, lines 279-287)

After splitting a row into fields, the reader keeps all fields when no
column list was requested, and otherwise walks the requested indices in
order, copying `fields[i]` only when `i < fields.size()`. -/

/-- The `filtered_fields` construction of `processChunk`: project a
row's fields onto the requested column indices, in request order; a
requested index at or beyond the row's field count contributes nothing. -/
def filteredFields {α : Type} (columnsToInclude : List Nat)
    (fields : List α) : List α :=
  if columnsToInclude.isEmpty then fields
  else columnsToInclude.filterMap (fun i => fields.get? i)

/-! ## bedMethyl parsing (`src/core/hylord.cpp`, `src/data/BedRecords.hpp`)

`run` projects every bedMethyl row with `bedmethyl_important_fields`
before `Bed9Plus9::fromFields` parses the projected row.  The numeric
content of a row is modelled as a list of rationals (the string-to-double
conversion of in-range fields is abstracted away); `fromFields` first
demands at least 6 fields (`validateFields(fields, 6)`) and reads the
fraction-modified value from `fields[5]`, converting the percentage to a
proportion. -/

/-- The projection used by `run` for bedMethyl input:
`IO::ColumnIndexes bedmethyl_important_fields{0, 1, 2, 3, 10}`. -/
def bedmethylImportantFields : List Nat := [0, 1, 2, 3, 10]

/-- Modelled from the spec: the six-column canonical projection
`{chrom, start, end, name, read_depth, fraction_modified}` =
raw columns `{0, 1, 2, 3, 4, 10}` that the specification states bulk
rows are projected onto (the spec declares this projected column set
canonical). -/
def specCanonicalFields : List Nat := [0, 1, 2, 3, 4, 10]

/-- `Maths::convertToProportion`: multiply a percentage by `0.01`. -/
def convertToProportion (percentValue : ℚ) : ℚ :=
  percentValue * (1 / 100)

/-- The fraction-modified extraction of `Bed9Plus9::fromFields`:
`validateFields(fields, 6)` throws when the (projected) row has fewer
than 6 fields; otherwise the record's methylation proportion is
`convertToProportion(std::stod(fields[5]))`. -/
def bed9Plus9FractionModified (fields : List ℚ) : Except String ℚ :=
  if fields.length < 6 then
    Except.error "Could not parse field, too few fields (expected >=6)"
  else Except.ok (convertToProportion (fields.getD 5 0))

/-! ## Linear algebra for the QP solve (`src/maths/LinearAlgebra.cpp`) -/

/-- The fixed regularisation constant `epsilon = 1e-8` of `gramMatrix`. -/
def epsilonReg : ℚ := 1e-8

/-- `LinearAlgebra::gramMatrix`: `matrix.transpose() * matrix` plus
`epsilon * Identity`, written entrywise as Eigen evaluates it
(`(Rᵀ R)(i,j) = ∑ k, R(k,i) * R(k,j)`; the identity contributes
`epsilon` on the diagonal). -/
def gramMatrix {m n : Nat} (R : Matrix (Fin m) (Fin n) ℚ) :
    Matrix (Fin n) (Fin n) ℚ :=
  Matrix.of fun i j =>
    (∑ k : Fin m, R k i * R k j) + (if i = j then epsilonReg else 0)

/-- `LinearAlgebra::generateCoefficientVector`: throw a
`DeconvolutionException` when the bulk vector's row count differs from
the reference matrix's row count, else return `-(bulkᵀ * R)` (entrywise
`-(∑ i, bulk(i) * R(i,j))`). -/
def generateCoefficientVector {m n p : Nat} (R : Matrix (Fin m) (Fin n) ℚ)
    (bulk : Fin p → ℚ) : Except String (Fin n → ℚ) :=
  if h : p = m then
    Except.ok (fun j => -(∑ i : Fin p, bulk i * R (Fin.cast h i) j))
  else
    Except.error "CpGs in bulk_data must be equal to CpGs in reference data."

/-- The QP inputs built by one `Deconvolver::runQpmad` call: the Hessian
from `gramMatrix` and the linear term from `generateCoefficientVector`
(the subsequent `qpmad` solve is external). -/
def runQpmadInputs {m n p : Nat} (R : Matrix (Fin m) (Fin n) ℚ)
    (bulk : Fin p → ℚ) :
    Except String (Matrix (Fin n) (Fin n) ℚ × (Fin n → ℚ)) :=
  (generateCoefficientVector R bulk).map (fun c => (gramMatrix R, c))

/-! ## Deconvolution loop (`src/core/hylord.cpp` lines 108-131,
`src/maths/LinearAlgebra.hpp`, `src/data/LinearAlgebra.cpp`) -/

/-- Eigen's `squaredNorm` of a vector. -/
def sqNorm {k : Nat} (v : Fin k → ℚ) : ℚ := ∑ i, v i * v i

/-- The stability floor `min_stable_norm = 1e-10` of `pseudoInverse`. -/
def minStableNorm : ℚ := 1e-10

/-- `LinearAlgebra::pseudoInverse`: throw a `std::invalid_argument` when
the squared norm is below the stability floor, else return
`vᵀ / (vᵀ v)`. -/
def pseudoInverse {k : Nat} (v : Fin k → ℚ) : Except String (Fin k → ℚ) :=
  if sqNorm v < minStableNorm then
    Except.error "Norm of vector is too small for numerical stability."
  else Except.ok (fun i => v i / sqNorm v)

/-- `update_reference_matrix` (hylord.cpp) /
`LinearAlgebra::updateReferenceMatrix`: with `k` known columns
(`k = total - additional`), replace the rightmost `additional` columns by
`(bulk - r_k * p_k) * pseudoInverse(p_l)`; the `pseudoInverse` call is
evaluated first, so when it throws the matrix is left unchanged and the
failure propagates (`none`). -/
def updateReferenceMatrix {m n : Nat} (R : Matrix (Fin m) (Fin n) ℚ)
    (p : Fin n → ℚ) (bulk : Fin m → ℚ) (addl : Nat) :
    Except String (Matrix (Fin m) (Fin n) ℚ) :=
  let k := n - addl
  let pl : Fin addl → ℚ :=
    fun t => if h : k + t.val < n then p ⟨k + t.val, h⟩ else 0
  (pseudoInverse pl).map fun pinv =>
    Matrix.of fun i j =>
      if j.val < k then R i j
      else
        (bulk i - ∑ c : Fin n, if c.val < k then R i c * p c else 0) *
          (if h : j.val - k < addl then pinv ⟨j.val - k, h⟩ else 0)

/-- `LinearAlgebra::squaredDistance` (the body of
`Deconvolver::changeInProportions`): `(v - w).squaredNorm()`. -/
def squaredDistance {n : Nat} (v w : Fin n → ℚ) : ℚ :=
  ∑ i, (v i - w i) * (v i - w i)

/-- The iterative deconvolution loop of `run` (Mode B), carried out on
the concrete state `(reference_matrix, proportions)`.  The qpmad solve is
abstracted as `solver` (a function of the current reference matrix).
Each pass: solve; try the reference update, and on a thrown
`std::invalid_argument` stop with the matrix as it was and the freshly
solved proportions; otherwise, on every pass after the first, stop as
converged when the squared distance between the current and previous
proportion vectors is below `thr`.  `fuel` is `max_iterations - iter`. -/
def deconvLoop {m n : Nat} (solver : Matrix (Fin m) (Fin n) ℚ → (Fin n → ℚ))
    (bulk : Fin m → ℚ) (addl : Nat) (thr : ℚ) :
    Nat → Nat → Matrix (Fin m) (Fin n) ℚ → (Fin n → ℚ) →
    Matrix (Fin m) (Fin n) ℚ × (Fin n → ℚ)
  | 0, _, R, prev => (R, prev)
  | fuel + 1, iter, R, prev =>
    let p := solver R
    match updateReferenceMatrix R p bulk addl with
    | Except.error _ => (R, p)
    | Except.ok R' =>
      if 0 < iter ∧ squaredDistance p prev < thr then (R', p)
      else deconvLoop solver bulk addl thr fuel (iter + 1) R' p

/-- The control skeleton of the same loop, counting QP solves.  The
outcome of the caught reference-update exception is abstracted as
`updOk iter`, and the squared distance between the proportion vectors of
solve `iter` and solve `iter - 1` as `chg iter` (compared against the
convergence threshold `thr` only when `iter > 0`).  Returns how many
`runQpmad` calls the loop performs. -/
def deconvIterLoopCount : Nat → Nat → (Nat → Bool) → (Nat → ℚ) → ℚ → Nat
  | 0, _, _, _, _ => 0
  | fuel + 1, iter, updOk, chg, thr =>
    1 + (if updOk iter = false then 0
         else if 0 < iter ∧ chg iter < thr then 0
         else deconvIterLoopCount fuel (iter + 1) updOk chg thr)

/-- Number of QP solves performed by the Mode-B loop of `run` with
`max_iterations = maxIter`. -/
def hylordSolveCount (maxIter : Nat) (updOk : Nat → Bool) (chg : Nat → ℚ)
    (thr : ℚ) : Nat :=
  deconvIterLoopCount maxIter 0 updOk chg thr

/-! ## Reference matrix data (`src/data/BedData.cpp`) and the reference
profile sampler (`src/random/rng.hpp`) -/

/-- `BedRecords::Bed4PlusX`: a reference-matrix row. -/
structure Bed4PlusX where
  chromosome : Int
  start : Int
  name : Char
  methylation_proportions : List ℚ
deriving DecidableEq, Repr

/-- `RNG::methylation_cdf`. -/
def methylationCDF : List ℚ :=
  [0.06884382, 0.10354818, 0.12962329, 0.16059704, 0.20894288, 0.27983389,
   0.38286741, 0.53027698, 0.76769743, 0.97110349, 1]

/-- `RNG::hydroxymethylation_cdf`. -/
def hydroxymethylationCDF : List ℚ :=
  [0.23067502, 0.57876935, 0.79139396, 0.90436016, 0.96756705, 0.99265250,
   0.99879729, 0.99962567, 0.99974549, 0.99975449, 1]

/-- `std::ranges::lower_bound(cdf, r)` as an index: the position of the
first element not less than `r` (the length if none). -/
def lowerBoundIdx (cdf : List ℚ) (r : ℚ) : Nat :=
  match cdf with
  | [] => 0
  | c :: cs => if c < r then lowerBoundIdx cs r + 1 else 0

/-- `RNG::getRandomValueFromCDF`, with the uniform draw made an explicit
argument `randomValue`: look the draw up in the CDF, clamp the index to
`size - 1` (the rounding-error guard), and return
`index / (size - 1)`. -/
def getRandomValueFromCDF (cdf : List ℚ) (randomValue : ℚ) : ℚ :=
  (↑(min (lowerBoundIdx cdf randomValue) (cdf.length - 1)) : ℚ) /
    ((cdf.length - 1 : Nat) : ℚ)

/-- `ReferenceMatrixData::addMoreCellTypes(num_cell_types)`: to every
row append `num_cell_types` freshly sampled proportions, drawn from
`methylation_cdf` for rows named `'m'` and from
`hydroxymethylation_cdf` otherwise.  The process-wide RNG is modelled by
the explicit stream `draws` of uniform draws (one per row index and
appended column). -/
def addMoreCellTypesFrom (draws : Nat → Nat → ℚ) (numCellTypes : Nat) :
    Nat → List Bed4PlusX → List Bed4PlusX
  | _, [] => []
  | rowIdx, row :: rest =>
    { row with
      methylation_proportions := row.methylation_proportions ++
        (List.range numCellTypes).map fun i =>
          getRandomValueFromCDF
            (if row.name = 'm' then methylationCDF else hydroxymethylationCDF)
            (draws rowIdx i) } ::
      addMoreCellTypesFrom draws numCellTypes (rowIdx + 1) rest

/-- The full `addMoreCellTypes` traversal, starting at the first row. -/
def addMoreCellTypes (draws : Nat → Nat → ℚ) (numCellTypes : Nat)
    (records : List Bed4PlusX) : List Bed4PlusX :=
  addMoreCellTypesFrom draws numCellTypes 0 records

/-- `ReferenceMatrixData::getAsEigenMatrix`: the column count is taken
from the first record; any record with a different proportion count
throws a `PreprocessingException`, otherwise the rows form the solver
matrix.  (On an empty collection the source indexes `m_records[0]` out
of bounds; the model reports that as an error as well.) -/
def getAsEigenMatrix (records : List Bed4PlusX) :
    Except String (List (List ℚ)) :=
  match records with
  | [] => Except.error "m_records[0] indexes an empty collection"
  | r0 :: rest =>
    if (r0 :: rest).all
        (fun r => r.methylation_proportions.length =
          r0.methylation_proportions.length) then
      Except.ok ((r0 :: rest).map (fun r => r.methylation_proportions))
    else
      Except.error "Inconsistent number of entries in reference matrix."

/-- Concrete 1x1 reference matrix used by witnesses. -/
def exampleRefMatrix : Matrix (Fin 1) (Fin 1) ℚ := Matrix.of fun _ _ => 2

/-- Concrete 1-entry bulk vector used by witnesses. -/
def exampleBulk : Fin 1 → ℚ := fun _ => 3

/-! ## Theorems -/

/-! ### C1: thread-count invariance of the ingestion engine -/

theorem splitNl_ne_nil (A : List Char) : splitNl A ≠ [] := by
  induction A with
  | nil => simp [splitNl]
  | cons c cs ih =>
    simp only [splitNl]
    split
    · simp
    · split <;> simp

theorem linesOf_append_nl (A B : List Char) :
    linesOf (A ++ '\n' :: B) = splitNl A ++ linesOf B := by
  induction A with
  | nil => simp [linesOf, splitNl]
  | cons c cs ih =>
    by_cases hc : c = '\n'
    · subst hc
      simp [linesOf, splitNl, ih]
    · simp only [List.cons_append, linesOf, splitNl, if_neg hc,
        List.append_eq]
      rw [ih]
      cases h : splitNl cs with
      | nil => exact absurd h (splitNl_ne_nil cs)
      | cons l ls => simp

theorem splitNl_eq_or (A : List Char) :
    splitNl A = linesOf A ∨ splitNl A = linesOf A ++ [[]] := by
  induction A with
  | nil => right; simp [splitNl, linesOf]
  | cons c cs ih =>
    by_cases hc : c = '\n'
    · subst hc
      simp only [splitNl, linesOf, if_pos rfl]
      rcases ih with h | h
      · left; rw [h]
      · right; rw [h]; simp
    · simp only [splitNl, linesOf, if_neg hc]
      rcases ih with h | h
      · left
        cases hcs : linesOf cs with
        | nil => exact absurd (h.trans hcs) (splitNl_ne_nil cs)
        | cons l ls => rw [h, hcs]
      · cases hcs : linesOf cs with
        | nil =>
          left
          rw [h, hcs]
          simp
        | cons l ls =>
          right
          rw [h, hcs]
          simp

theorem filterMap_splitNl {R : Type} (parse : List Char → Option R)
    (hp : parse [] = none) (A : List Char) :
    (splitNl A).filterMap parse = (linesOf A).filterMap parse := by
  rcases splitNl_eq_or A with h | h <;> rw [h]
  rw [List.filterMap_append]
  simp [hp]

theorem filterMap_linesOf_cut {R : Type} (parse : List Char → Option R)
    (hp : parse [] = none) (A B : List Char) :
    (linesOf (A ++ '\n' :: B)).filterMap parse =
      (linesOf A).filterMap parse ++ (linesOf B).filterMap parse := by
  rw [linesOf_append_nl, List.filterMap_append, filterMap_splitNl parse hp]

theorem slice_eq_nil {f : List Char} {s e : Nat} (h : e ≤ s) :
    slice f s e = [] := by
  simp [slice, Nat.sub_eq_zero_of_le h]

theorem slice_full (f : List Char) (s : Nat) :
    slice f s f.length = f.drop s := by
  unfold slice
  rw [← List.length_drop, List.take_length]

theorem slice_cut (f : List Char) {s e : Nat} (hse : s ≤ e)
    (he : e < f.length) :
    slice f s f.length = slice f s e ++ f[e] :: slice f (e + 1) f.length := by
  rw [slice_full, slice_full]
  conv_lhs => rw [← List.take_append_drop (e - s) (f.drop s)]
  rw [List.drop_drop, show s + (e - s) = e from by omega]
  rw [List.drop_eq_getElem_cons he]
  rfl

theorem findNlIdx_le (l : List Char) : findNlIdx l ≤ l.length := by
  induction l with
  | nil => simp [findNlIdx]
  | cons c cs ih =>
    simp only [findNlIdx, List.length_cons]
    split
    · omega
    · omega

theorem findNlIdx_get (l : List Char) (h : findNlIdx l < l.length) :
    l[findNlIdx l] = '\n' := by
  induction l with
  | nil => simp at h
  | cons c cs ih =>
    by_cases hc : c = '\n'
    · simp [findNlIdx, hc]
    · simp only [findNlIdx, if_neg hc] at h ⊢
      simp only [List.getElem_cons_succ]
      exact ih (by simpa using h)

theorem le_findNl (f : List Char) (p : Nat) : p ≤ findNl f p :=
  Nat.le_add_right _ _

theorem findNl_le_length (f : List Char) {p : Nat} (h : p ≤ f.length) :
    findNl f p ≤ f.length := by
  have h1 := findNlIdx_le (f.drop p)
  rw [List.length_drop] at h1
  unfold findNl
  omega

theorem findNl_get (f : List Char) {p : Nat}
    (h : findNl f p < f.length) : f[findNl f p] = '\n' := by
  have hp : p ≤ f.length := le_trans (le_findNl f p) (le_of_lt h)
  have hidx : findNlIdx (f.drop p) < (f.drop p).length := by
    rw [List.length_drop]
    unfold findNl at h
    omega
  have := findNlIdx_get (f.drop p) hidx
  rw [List.getElem_drop] at this
  exact this

theorem findChunkEndNat_spec (f : List Char) (s size : Nat) :
    findChunkEndNat f s size = f.length ∨
      ∃ h : findChunkEndNat f s size < f.length,
        f[findChunkEndNat f s size] = '\n' ∧ s ≤ findChunkEndNat f s size := by
  unfold findChunkEndNat
  split
  · left; rfl
  · rename_i hlt
    push_neg at hlt
    rcases Nat.lt_or_ge (findNl f (s + size)) f.length with h | h
    · right
      exact ⟨h, findNl_get f h, le_trans (Nat.le_add_right s size)
        (le_findNl f (s + size))⟩
    · left
      exact le_antisymm (findNl_le_length f (le_of_lt hlt)) h

theorem processChunk_nil {R : Type} (parse : List Char → Option R)
    (f : List Char) {s e : Nat} (h : e ≤ s) :
    processChunk parse f s e = [] := by
  unfold processChunk
  rw [slice_eq_nil h]
  rfl

theorem processChunk_cut {R : Type} (parse : List Char → Option R)
    (hp : parse [] = none) (f : List Char) {s e : Nat} (hse : s ≤ e)
    (he : e < f.length) (hnl : f[e] = '\n') :
    processChunk parse f s f.length =
      processChunk parse f s e ++ processChunk parse f (e + 1) f.length := by
  unfold processChunk
  rw [slice_cut f hse he, hnl, filterMap_linesOf_cut parse hp]

theorem chunkRangesNat_flatten {R : Type} (parse : List Char → Option R)
    (hp : parse [] = none) (f : List Char) (size : Nat) :
    ∀ threads, 1 ≤ threads → ∀ cur,
      ((chunkRangesNat f size threads cur).map
        (fun r => processChunk parse f r.1 r.2)).flatten =
        processChunk parse f cur f.length := by
  intro threads
  induction threads with
  | zero => intro h; exact absurd h (by norm_num)
  | succ t ih =>
    intro _ cur
    match t with
    | 0 => simp [chunkRangesNat]
    | t' + 1 =>
      simp only [chunkRangesNat, List.map_cons, List.flatten_cons]
      rw [ih (by omega) (findChunkEndNat f cur size + 1)]
      rcases findChunkEndNat_spec f cur size with hN | ⟨hlt, hnl, hcur⟩
      · have hnil : processChunk parse f (f.length + 1) f.length = [] :=
          processChunk_nil parse f (Nat.le_succ _)
        rw [hN, hnil, List.append_nil]
      · exact (processChunk_cut parse hp f hcur hlt hnl).symm

theorem intCast32_of_lt {n : Nat} (h : n < 2 ^ 31) : intCast32 n = n := by
  unfold intCast32
  rw [Nat.mod_eq_of_lt (by omega)]
  push_cast
  omega

theorem findChunkEnd_of_nonneg (f : List Char) (s : Nat) (size : Int)
    (h : 0 ≤ size) :
    findChunkEnd f s size = some (findChunkEndNat f s size.toNat) := by
  unfold findChunkEnd findChunkEndNat
  have hcast : (s : Int) + size = ((s + size.toNat : Nat) : Int) := by
    push_cast
    omega
  rw [hcast]
  by_cases hle : f.length ≤ s + size.toNat
  · rw [if_pos (by exact_mod_cast hle), if_pos hle]
  · rw [if_neg (by exact_mod_cast hle), if_neg (by push_cast; omega),
      Int.toNat_natCast, if_neg hle]

theorem findChunkEnd_neg_none (f : List Char) (size : Int)
    (hneg : size < 0) : findChunkEnd f 0 size = none := by
  unfold findChunkEnd
  rw [if_neg (by push_cast; omega), if_pos (by push_cast; omega)]

theorem chunkRanges_of_nonneg (f : List Char) (size : Int) (h : 0 ≤ size) :
    ∀ threads cur, chunkRanges f size threads cur =
      some (chunkRangesNat f size.toNat threads cur) := by
  intro threads
  induction threads with
  | zero => intro cur; rfl
  | succ t ih =>
    intro cur
    match t with
    | 0 => rfl
    | t' + 1 =>
      rw [show chunkRanges f size (t' + 2) cur =
          (match findChunkEnd f cur size with
           | none => none
           | some e =>
             (chunkRanges f size (t' + 1) (e + 1)).map
               (fun rest => (cur, e) :: rest)) from rfl]
      rw [findChunkEnd_of_nonneg f cur size h]
      show (chunkRanges f size (t' + 1)
          (findChunkEndNat f cur size.toNat + 1)).map
          (fun rest => (cur, findChunkEndNat f cur size.toNat) :: rest) =
        some (chunkRangesNat f size.toNat (t' + 2) cur)
      rw [ih (findChunkEndNat f cur size.toNat + 1)]
      rfl

theorem chunkRanges_two_none (f : List Char) (size : Int)
    (h : findChunkEnd f 0 size = none) : chunkRanges f size 2 0 = none := by
  rw [show chunkRanges f size 2 0 =
      (match findChunkEnd f 0 size with
       | none => none
       | some e =>
         (chunkRanges f size 1 (e + 1)).map
           (fun rest => (0, e) :: rest)) from rfl]
  rw [h]

/-- C1 counterexample: a valid 2^31-byte file (one giant line of `'a'`
bytes) with 2 threads makes `static_cast<int>(m_file_size)` wrap to
`-2^31`, the chunk size becomes `-2^30`, and the first chunk's boundary
candidate precedes the mapping, so the parallel parse crashes (`none`)
while the single-threaded parse of the same file succeeds: the parsed
record sequence is not thread-count invariant over all valid files. -/
theorem ingestion_thread_count_counterexample :
    processFile (fun l => if l.isEmpty then none else some l)
      (List.replicate (2 ^ 31) 'a') 2 = none ∧
    ∃ r, processFile (fun l => if l.isEmpty then none else some l)
      (List.replicate (2 ^ 31) 'a') 1 = some r := by
  constructor
  · unfold processFile
    rw [chunkRanges_two_none _ _ (findChunkEnd_neg_none _ _ (by
      rw [List.length_replicate]
      rw [show intCast32 (2 ^ 31) = -(2 ^ 31) from by
        unfold intCast32; norm_num]
      decide))]
    rfl
  · exact ⟨_, rfl⟩

/-- C1 (amended): for every valid input file smaller than 2^31 bytes
(so the `static_cast<int>` of the file size does not wrap) and every
thread count `T ≥ 1`, the record sequence produced by the parallel
ingestion engine (chunk boundaries snapped forward to the next newline
by `findChunkEnd`, final chunk to file end, chunks reassembled by chunk
index) is exactly the record sequence of a single sequential
line-by-line parse of the whole file.  The hypothesis `parse [] = none`
records that an empty line never converts to a record, which holds for
every record parser of the repository (all of them reject a
one-empty-field row). -/
theorem ingestion_thread_count_invariance {R : Type}
    (parse : List Char → Option R) (f : List Char) (threads : Nat)
    (hp : parse [] = none) (ht : 1 ≤ threads)
    (hsize : f.length < 2 ^ 31) :
    processFile parse f threads =
      some (processChunk parse f 0 f.length) := by
  unfold processFile
  have hdiv : (intCast32 f.length).tdiv (threads : Int) =
      ((f.length / threads : Nat) : Int) := by
    rw [intCast32_of_lt hsize]
    rfl
  rw [hdiv, chunkRanges_of_nonneg f _ (by exact_mod_cast Nat.zero_le _)
    threads 0, Int.toNat_natCast]
  exact congrArg some
    (chunkRangesNat_flatten parse hp f (f.length / threads) threads ht 0)

/-- Witness for C1 (amended): a concrete three-line file parsed with 3
threads equals the sequential parse. -/
theorem ingestion_thread_count_invariance_witness :
    processFile (fun l => if l.isEmpty then none else some l)
      "ab\ncd\nef".toList 3 =
      some (processChunk (fun l => if l.isEmpty then none else some l)
        "ab\ncd\nef".toList 0 "ab\ncd\nef".toList.length) :=
  ingestion_thread_count_invariance
    (fun l => if l.isEmpty then none else some l)
    "ab\ncd\nef".toList 3 rfl (by norm_num) (by decide)

/-! ### C2: the QP setup of one solver iteration -/

/-- C2: the Hessian built by `runQpmad` equals `Rᵀ R + 1e-8·I`, and the
linear term equals `-(bulkᵀ R)` whenever the row counts of the reference
matrix and the bulk vector agree; when they differ,
`generateCoefficientVector` throws a `DeconvolutionException` instead of
returning a value. -/
theorem qp_setup_correct {m n p : Nat} (R : Matrix (Fin m) (Fin n) ℚ)
    (bulk : Fin p → ℚ) :
    gramMatrix R = Matrix.transpose R * R +
      epsilonReg • (1 : Matrix (Fin n) (Fin n) ℚ) ∧
    (∀ h : p = m, generateCoefficientVector R bulk =
      Except.ok (-(Matrix.vecMul (fun i => bulk (Fin.cast h.symm i)) R))) ∧
    (p ≠ m → ∃ msg, generateCoefficientVector R bulk = Except.error msg) := by
  refine ⟨?_, ?_, ?_⟩
  · ext i j
    simp only [gramMatrix, Matrix.of_apply, Matrix.add_apply, Matrix.mul_apply,
      Matrix.transpose_apply, Matrix.smul_apply, Matrix.one_apply,
      smul_eq_mul]
    congr 1
    split <;> simp
  · intro h
    subst h
    unfold generateCoefficientVector
    rw [dif_pos rfl]
    refine congrArg Except.ok ?_
    funext j
    simp [Matrix.vecMul, Matrix.dotProduct]
  · intro hne
    unfold generateCoefficientVector
    rw [dif_neg hne]
    exact ⟨_, rfl⟩

/-- Witness for C2 at a concrete 1x1 system. -/
theorem qp_setup_correct_witness :
    generateCoefficientVector exampleRefMatrix exampleBulk =
      Except.ok (-(Matrix.vecMul (fun i => exampleBulk (Fin.cast rfl i))
        exampleRefMatrix)) :=
  (qp_setup_correct exampleRefMatrix exampleBulk).2.1 rfl

/-! ### C3: termination behaviour of the iterative loop -/

theorem deconvIterLoopCount_le (updOk : Nat → Bool) (chg : Nat → ℚ)
    (thr : ℚ) : ∀ fuel iter,
    deconvIterLoopCount fuel iter updOk chg thr ≤ fuel := by
  intro fuel
  induction fuel with
  | zero => intro iter; simp [deconvIterLoopCount]
  | succ f ih =>
    intro iter
    simp only [deconvIterLoopCount]
    split
    · omega
    · split
      · omega
      · have := ih (iter + 1); omega

theorem deconvIterLoopCount_lt_iff (updOk : Nat → Bool) (chg : Nat → ℚ)
    (thr : ℚ) : ∀ fuel iter,
    deconvIterLoopCount fuel iter updOk chg thr < fuel ↔
      ∃ d, d + 1 < fuel ∧
        (updOk (iter + d) = false ∨
          (0 < iter + d ∧ chg (iter + d) < thr)) := by
  intro fuel
  induction fuel with
  | zero =>
    intro iter
    simp [deconvIterLoopCount]
  | succ f ih =>
    intro iter
    simp only [deconvIterLoopCount]
    by_cases h1 : updOk iter = false
    · rw [if_pos h1]
      constructor
      · intro hlt
        exact ⟨0, by omega, Or.inl (by simpa using h1)⟩
      · rintro ⟨d, hd, _⟩
        omega
    · rw [if_neg h1]
      by_cases h2 : 0 < iter ∧ chg iter < thr
      · rw [if_pos h2]
        constructor
        · intro hlt
          exact ⟨0, by omega, Or.inr (by simpa using h2)⟩
        · rintro ⟨d, hd, _⟩
          omega
      · rw [if_neg h2]
        constructor
        · intro hlt
          obtain ⟨d, hd, hstop⟩ := (ih (iter + 1)).1 (by omega)
          refine ⟨d + 1, by omega, ?_⟩
          have harr : iter + 1 + d = iter + (d + 1) := by omega
          rw [harr] at hstop
          exact hstop
        · rintro ⟨d, hd, hstop⟩
          cases d with
          | zero =>
            rw [Nat.add_zero] at hstop
            rcases hstop with hh | hh
            · exact absurd hh h1
            · exact absurd hh h2
          | succ d' =>
            have harr : iter + (d' + 1) = iter + 1 + d' := by omega
            rw [harr] at hstop
            have := (ih (iter + 1)).2 ⟨d', by omega, hstop⟩
            omega

theorem deconvIterLoopCount_chg_first_unused (updOk : Nat → Bool)
    (thr : ℚ) (chg chg' : Nat → ℚ)
    (hagree : ∀ i, 0 < i → chg i = chg' i) : ∀ fuel iter,
    deconvIterLoopCount fuel iter updOk chg thr =
      deconvIterLoopCount fuel iter updOk chg' thr := by
  intro fuel
  induction fuel with
  | zero => intro iter; rfl
  | succ f ih =>
    intro iter
    simp only [deconvIterLoopCount]
    congr 1
    by_cases h1 : updOk iter = false
    · rw [if_pos h1, if_pos h1]
    · rw [if_neg h1, if_neg h1]
      rcases Nat.eq_zero_or_pos iter with hz | hpos
      · subst hz
        rw [if_neg (by simp), if_neg (by simp)]
        exact ih 1
      · rw [hagree iter hpos]
        split
        · rfl
        · exact ih (iter + 1)

/-- C3 counterexample: the loop can terminate before `max_iterations`
with the squared distance never below the threshold — a thrown
reference-update exception (here on the very first pass, with
`max_iterations = 2`) breaks the loop after a single QP solve even
though no distance is ever below the threshold `0`. -/
theorem deconv_loop_termination_counterexample :
    hylordSolveCount 2 (fun _ => false) (fun _ => (0 : ℚ)) 0 = 1 ∧
    hylordSolveCount 2 (fun _ => false) (fun _ => (0 : ℚ)) 0 < 2 ∧
    ∀ i : Nat, ¬((fun _ => (0 : ℚ)) i < 0) :=
  ⟨rfl, by norm_num [hylordSolveCount, deconvIterLoopCount],
    fun _ => lt_irrefl 0⟩

/-- C3 (amended): the Mode-B loop performs at most `max_iterations` QP
solves; it terminates before `max_iterations` exactly when some
iteration with at least one later iteration remaining either has its
reference-matrix update throw, or is an iteration after the first whose
squared distance between current and previous proportion vectors is
below `convergence_threshold`; and the distance value of iteration 1
(loop index 0) is never consulted. -/
theorem deconv_loop_termination (maxIter : Nat) (updOk : Nat → Bool)
    (chg : Nat → ℚ) (thr : ℚ) :
    hylordSolveCount maxIter updOk chg thr ≤ maxIter ∧
    (hylordSolveCount maxIter updOk chg thr < maxIter ↔
      ∃ i, i + 1 < maxIter ∧
        (updOk i = false ∨ (0 < i ∧ chg i < thr))) ∧
    (∀ chg' : Nat → ℚ, (∀ i, 0 < i → chg i = chg' i) →
      hylordSolveCount maxIter updOk chg thr =
        hylordSolveCount maxIter updOk chg' thr) := by
  refine ⟨deconvIterLoopCount_le updOk chg thr maxIter 0, ?_, ?_⟩
  · have h := deconvIterLoopCount_lt_iff updOk chg thr maxIter 0
    simpa using h
  · intro chg' hagree
    exact deconvIterLoopCount_chg_first_unused updOk thr chg chg' hagree
      maxIter 0

/-- Witness for C3 (amended): a concrete run converging on loop index 1
with `max_iterations = 5` performs 2 of at most 5 solves, and the
early-termination characterisation and first-iteration independence hold
there. -/
theorem deconv_loop_termination_witness :
    hylordSolveCount 5 (fun _ => true) (fun i => if i = 0 then 9 else 0)
        (1 : ℚ) ≤ 5 ∧
    (hylordSolveCount 5 (fun _ => true) (fun i => if i = 0 then 9 else 0)
        (1 : ℚ) < 5 ↔
      ∃ i, i + 1 < 5 ∧
        ((fun _ => true) i = false ∨
          (0 < i ∧ (fun i => if i = 0 then (9 : ℚ) else 0) i < 1))) ∧
    (∀ chg' : Nat → ℚ,
      (∀ i, 0 < i → (fun i => if i = 0 then (9 : ℚ) else 0) i = chg' i) →
      hylordSolveCount 5 (fun _ => true) (fun i => if i = 0 then 9 else 0)
          (1 : ℚ) =
        hylordSolveCount 5 (fun _ => true) chg' (1 : ℚ)) :=
  deconv_loop_termination 5 (fun _ => true)
    (fun i => if i = 0 then 9 else 0) 1

/-! ### C5: bedMethyl column projection feeding `Bed9Plus9::fromFields` -/

/-- C5: demonstration of the projection/parser mismatch on a standard
18-field bedMethyl row (numeric content abstracted to rationals, the
fraction-modified percentage `85.5` in raw column 10).  The code's
projection `{0, 1, 2, 3, 10}` produces a 5-field row which
`Bed9Plus9::fromFields` (requiring at least 6 fields) rejects, so every
such row is skipped; under the spec's canonical 6-column projection
`{0, 1, 2, 3, 4, 10}` the same row parses, and the fraction-modified
value is the last projected column divided by 100. -/
theorem bedmethyl_projection_code_bug :
    (filteredFields bedmethylImportantFields
      ([1, 100, 101, 5, 30, 0, 0, 0, 0, 30, 85.5,
        2, 1, 0, 0, 0, 0, 0] : List ℚ)).length = 5 ∧
    (∃ msg, bed9Plus9FractionModified
      (filteredFields bedmethylImportantFields
        ([1, 100, 101, 5, 30, 0, 0, 0, 0, 30, 85.5,
          2, 1, 0, 0, 0, 0, 0] : List ℚ)) = Except.error msg) ∧
    bed9Plus9FractionModified
      (filteredFields specCanonicalFields
        ([1, 100, 101, 5, 30, 0, 0, 0, 0, 30, 85.5,
          2, 1, 0, 0, 0, 0, 0] : List ℚ)) =
      Except.ok (convertToProportion 85.5) :=
  ⟨rfl, ⟨_, rfl⟩, rfl⟩

/-! ### C8: out-of-range requested columns during projection -/

/-- C8 counterexample: with requested columns `[0, 5]` and a two-field
row, the projected row is `["a"]` — the out-of-range index 5 is skipped
and the projected row shrinks — not `["a", ""]` as the claim (an empty
field at the requested position) states. -/
theorem column_projection_counterexample :
    filteredFields [0, 5] (["a", "b"] : List String) = ["a"] ∧
    filteredFields [0, 5] (["a", "b"] : List String) ≠ ["a", ""] := by
  constructor
  · rfl
  · decide

theorem filterMap_get?_eq_filter_map {α : Type} (d : α) :
    ∀ (cols : List Nat) (fields : List α),
    cols.filterMap (fun i => fields.get? i) =
      (cols.filter (fun i => i < fields.length)).map
        (fun i => fields.getD i d) := by
  intro cols fields
  induction cols with
  | nil => rfl
  | cons i rest ih =>
    rw [List.filterMap_cons, List.filter_cons]
    by_cases h : i < fields.length
    · rw [if_pos (by simpa using h)]
      rw [List.get?_eq_get h, List.map_cons, ih]
      rw [List.getD_eq_getElem?_getD, List.getElem?_eq_getElem h]
      rfl
    · rw [if_neg (by simpa using h)]
      rw [List.get?_eq_none.mpr (by omega)]
      exact ih

/-- C8 (amended): for a non-empty requested column list, projection
keeps, in request order, exactly the in-range requested indices (each
copying its field); a requested index at or beyond the row's field count
is skipped, shrinking the projected row (the row itself still proceeds
to parsing).  An empty request list keeps the whole row. -/
theorem column_projection_skips_out_of_range (cols : List Nat)
    (fields : List String) (hne : cols ≠ []) :
    filteredFields cols fields =
      (cols.filter (fun i => i < fields.length)).map
        (fun i => fields.getD i "") ∧
    filteredFields ([] : List Nat) fields = fields := by
  constructor
  · unfold filteredFields
    rw [if_neg (by simpa using hne)]
    exact filterMap_get?_eq_filter_map "" cols fields
  · rfl

/-- Witness for C8 (amended) at a concrete request list and row. -/
theorem column_projection_witness :
    filteredFields [1, 0, 7] (["x", "y"] : List String) =
      (([1, 0, 7] : List Nat).filter
        (fun i => i < (["x", "y"] : List String).length)).map
        (fun i => (["x", "y"] : List String).getD i "") ∧
    filteredFields ([] : List Nat) (["x", "y"] : List String) =
      ["x", "y"] :=
  column_projection_skips_out_of_range [1, 0, 7] ["x", "y"] (by simp)

/-! ### C6: pseudoInverse stability floor and loop-level recovery -/

/-- C6: `pseudoInverse(v)` returns `vᵀ/(vᵀv)` whenever `‖v‖²` exceeds
the stability floor `1e-10`, and throws exactly when `‖v‖²` is below the
floor; when the reference-matrix update inside the iterative loop
throws, the loop stops at once, keeping the reference matrix of the last
successful update and the proportions of the current solve, and the loop
yields an ordinary value (the exception is caught at the loop boundary),
so the run proceeds to output instead of aborting. -/
theorem pseudoInverse_floor_and_loop_recovery {k m n : Nat}
    (v : Fin k → ℚ)
    (solver : Matrix (Fin m) (Fin n) ℚ → (Fin n → ℚ)) (bulk : Fin m → ℚ)
    (addl : Nat) (thr : ℚ) (fuel iter : Nat)
    (R : Matrix (Fin m) (Fin n) ℚ) (prev : Fin n → ℚ) :
    ((∃ msg, pseudoInverse v = Except.error msg) ↔
      sqNorm v < minStableNorm) ∧
    (minStableNorm < sqNorm v →
      pseudoInverse v = Except.ok (fun i => v i / sqNorm v)) ∧
    (∀ msg, updateReferenceMatrix R (solver R) bulk addl =
        Except.error msg →
      deconvLoop solver bulk addl thr (fuel + 1) iter R prev =
        (R, solver R)) := by
  refine ⟨?_, ?_, ?_⟩
  · unfold pseudoInverse
    split
    · rename_i h
      exact ⟨fun _ => h, fun _ => ⟨_, rfl⟩⟩
    · rename_i h
      constructor
      · rintro ⟨msg, hmsg⟩
        simp at hmsg
      · intro hlt
        exact absurd hlt h
  · intro h
    unfold pseudoInverse
    rw [if_neg (not_lt.mpr (le_of_lt h))]
  · intro msg hmsg
    simp [deconvLoop, hmsg]

/-- Witness for C6: a concrete 1x1 system with one additional cell type
whose solved proportions are all zero makes the update throw on the
first pass; the loop keeps the original reference matrix and the solved
proportions. -/
theorem pseudoInverse_floor_and_loop_recovery_witness :
    deconvLoop (m := 1) (n := 1) (fun _ => fun _ => 0) (fun _ => 1) 1 0 1 0
      exampleRefMatrix (fun _ => 0) = (exampleRefMatrix, fun _ => 0) :=
  (pseudoInverse_floor_and_loop_recovery (fun _ : Fin 1 => (0 : ℚ))
    (fun _ => fun _ => 0) (fun _ => 1) 1 0 0 0 exampleRefMatrix
    (fun _ => 0)).2.2
    "Norm of vector is too small for numerical stability." (by
      unfold updateReferenceMatrix
      simp only []
      rw [show (fun t : Fin 1 =>
          if h : 1 - 1 + t.val < 1 then
            (fun _ : Fin 1 => (0 : ℚ)) ⟨1 - 1 + t.val, h⟩ else 0) =
          (fun _ : Fin 1 => (0 : ℚ)) from by funext t; split <;> rfl]
      rw [pseudoInverse, if_pos (by norm_num [sqNorm, minStableNorm])]
      rfl)

/-! ### C9: the equal-column-count invariant of the reference matrix -/

theorem addMoreCellTypesFrom_lengths (draws : Nat → Nat → ℚ)
    (ncell : Nat) : ∀ (records : List Bed4PlusX) (rowIdx : Nat),
    (addMoreCellTypesFrom draws ncell rowIdx records).map
      (fun r => r.methylation_proportions.length) =
      records.map (fun r => r.methylation_proportions.length + ncell) := by
  intro records
  induction records with
  | nil => intro rowIdx; rfl
  | cons row rest ih =>
    intro rowIdx
    simp only [addMoreCellTypesFrom, List.map_cons, ih]
    simp

theorem addMoreCellTypesFrom_zero (draws : Nat → Nat → ℚ) :
    ∀ (records : List Bed4PlusX) (rowIdx : Nat),
    addMoreCellTypesFrom draws 0 rowIdx records = records := by
  intro records
  induction records with
  | nil => intro rowIdx; rfl
  | cons row rest ih =>
    intro rowIdx
    simp only [addMoreCellTypesFrom, List.range_zero, List.map_nil,
      List.append_nil, ih]

/-- C9: `addMoreCellTypes(n)` appends exactly `n` sampled values to
every row (so equal proportion counts are preserved), `n = 0` leaves the
matrix unchanged, and `getAsEigenMatrix` on a matrix whose rows have
unequal proportion counts throws a `PreprocessingException` instead of
producing a matrix. -/
theorem reference_matrix_column_invariant (draws : Nat → Nat → ℚ)
    (ncell : Nat) (records : List Bed4PlusX) :
    ((addMoreCellTypes draws ncell records).map
      (fun r => r.methylation_proportions.length) =
      records.map (fun r => r.methylation_proportions.length + ncell)) ∧
    (addMoreCellTypes draws 0 records = records) ∧
    (∀ r0 rest, records = r0 :: rest →
      (∃ r ∈ records, r.methylation_proportions.length ≠
        r0.methylation_proportions.length) →
      ∃ msg, getAsEigenMatrix records = Except.error msg) := by
  refine ⟨addMoreCellTypesFrom_lengths draws ncell records 0,
    addMoreCellTypesFrom_zero draws records 0, ?_⟩
  rintro r0 rest hrec ⟨r, hmem, hne⟩
  subst hrec
  simp only [getAsEigenMatrix]
  rw [if_neg]
  · exact ⟨_, rfl⟩
  · intro hall
    rw [List.all_eq_true] at hall
    have hr := hall r hmem
    simp only [decide_eq_true_eq] at hr
    exact hne hr

/-- Witness for C9: a two-row matrix with proportion counts 1 and 2 is
rejected by `getAsEigenMatrix`. -/
theorem reference_matrix_column_invariant_witness :
    ∃ msg, getAsEigenMatrix
      [⟨1, 0, 'm', [1]⟩, ⟨1, 1, 'h', [1, 2]⟩] = Except.error msg :=
  (reference_matrix_column_invariant (fun _ _ => 0) 0
    [⟨1, 0, 'm', [1]⟩, ⟨1, 1, 'h', [1, 2]⟩]).2.2
    ⟨1, 0, 'm', [1]⟩ [⟨1, 1, 'h', [1, 2]⟩] rfl
    ⟨⟨1, 1, 'h', [1, 2]⟩, by decide, by decide⟩

/-! ### C10: sampled CDF values are valid proportions -/

theorem getRandomValueFromCDF_bounds (cdf : List ℚ) (r : ℚ)
    (h2 : 2 ≤ cdf.length) :
    (∃ k, k ≤ cdf.length - 1 ∧
      getRandomValueFromCDF cdf r =
        (k : ℚ) / ((cdf.length - 1 : Nat) : ℚ)) ∧
    0 ≤ getRandomValueFromCDF cdf r ∧ getRandomValueFromCDF cdf r ≤ 1 := by
  have hd : (0 : ℚ) < ((cdf.length - 1 : Nat) : ℚ) := by
    have : 1 ≤ cdf.length - 1 := by omega
    exact_mod_cast Nat.lt_of_lt_of_le Nat.zero_lt_one this
  have hk : min (lowerBoundIdx cdf r) (cdf.length - 1) ≤ cdf.length - 1 :=
    min_le_right _ _
  refine ⟨⟨min (lowerBoundIdx cdf r) (cdf.length - 1), hk, rfl⟩, ?_, ?_⟩
  · exact div_nonneg (Nat.cast_nonneg _) (le_of_lt hd)
  · unfold getRandomValueFromCDF
    rw [div_le_one hd]
    exact_mod_cast hk

theorem addMoreCellTypesFrom_bounds (draws : Nat → Nat → ℚ)
    (ncell : Nat) : ∀ (records : List Bed4PlusX) (rowIdx : Nat),
    List.Forall₂ (fun row row' : Bed4PlusX =>
      ∀ v ∈ row'.methylation_proportions.drop
        row.methylation_proportions.length, 0 ≤ v ∧ v ≤ 1)
      records (addMoreCellTypesFrom draws ncell rowIdx records) := by
  intro records
  induction records with
  | nil => intro rowIdx; exact List.Forall₂.nil
  | cons row rest ih =>
    intro rowIdx
    refine List.Forall₂.cons ?_ (ih (rowIdx + 1))
    intro v hv
    rw [List.drop_left] at hv
    obtain ⟨i, _, rfl⟩ := List.mem_map.mp hv
    have h2 : 2 ≤ (if row.name = 'm' then methylationCDF
        else hydroxymethylationCDF).length := by
      split <;> decide
    exact (getRandomValueFromCDF_bounds _ (draws rowIdx i) h2).2

/-- C10: on a CDF with at least two entries, `getRandomValueFromCDF`
always returns `k/(n-1)` for some index `k ≤ n-1`, a value in `[0,1]`
regardless of the uniform draw; consequently every proportion appended
by `addMoreCellTypes` for an unknown cell type lies in `[0,1]`. -/
theorem sampled_values_are_proportions (cdf : List ℚ) (r : ℚ)
    (h2 : 2 ≤ cdf.length) (draws : Nat → Nat → ℚ) (ncell : Nat)
    (records : List Bed4PlusX) :
    (∃ k, k ≤ cdf.length - 1 ∧
      getRandomValueFromCDF cdf r =
        (k : ℚ) / ((cdf.length - 1 : Nat) : ℚ)) ∧
    (0 ≤ getRandomValueFromCDF cdf r ∧ getRandomValueFromCDF cdf r ≤ 1) ∧
    List.Forall₂ (fun row row' : Bed4PlusX =>
      ∀ v ∈ row'.methylation_proportions.drop
        row.methylation_proportions.length, 0 ≤ v ∧ v ≤ 1)
      records (addMoreCellTypes draws ncell records) :=
  ⟨(getRandomValueFromCDF_bounds cdf r h2).1,
    (getRandomValueFromCDF_bounds cdf r h2).2,
    addMoreCellTypesFrom_bounds draws ncell records 0⟩

/-- Witness for C10 on the repository's methylation CDF and a concrete
one-row matrix gaining one sampled cell type. -/
theorem sampled_values_are_proportions_witness :
    (∃ k, k ≤ methylationCDF.length - 1 ∧
      getRandomValueFromCDF methylationCDF (1 / 2) =
        (k : ℚ) / ((methylationCDF.length - 1 : Nat) : ℚ)) ∧
    (0 ≤ getRandomValueFromCDF methylationCDF (1 / 2) ∧
      getRandomValueFromCDF methylationCDF (1 / 2) ≤ 1) ∧
    List.Forall₂ (fun row row' : Bed4PlusX =>
      ∀ v ∈ row'.methylation_proportions.drop
        row.methylation_proportions.length, 0 ≤ v ∧ v ≤ 1)
      [⟨1, 0, 'm', []⟩]
      (addMoreCellTypes (fun _ _ => 1 / 2) 1 [⟨1, 0, 'm', []⟩]) :=
  sampled_values_are_proportions methylationCDF (1 / 2) (by decide)
    (fun _ _ => 1 / 2) 1 [⟨1, 0, 'm', []⟩]

/-! ### Order facts about `keyLt` (lexicographic `std::tie` comparison) -/

theorem keyLt_irrefl (a : GenomicKey) : ¬keyLt a a := by
  simp [keyLt]

theorem keyLt_trans {a b c : GenomicKey} (h1 : keyLt a b)
    (h2 : keyLt b c) : keyLt a c := by
  unfold keyLt at h1 h2 ⊢
  rcases h1 with h1 | ⟨e1, h1⟩ <;> rcases h2 with h2 | ⟨e2, h2⟩
  · exact Or.inl (lt_trans h1 h2)
  · exact Or.inl (by rw [← e2]; exact h1)
  · exact Or.inl (by rw [e1]; exact h2)
  · refine Or.inr ⟨e1.trans e2, ?_⟩
    rcases h1 with h1 | ⟨f1, g1⟩ <;> rcases h2 with h2 | ⟨f2, g2⟩
    · exact Or.inl (lt_trans h1 h2)
    · exact Or.inl (by rw [← f2]; exact h1)
    · exact Or.inl (by rw [f1]; exact h2)
    · exact Or.inr ⟨f1.trans f2, lt_trans g1 g2⟩

theorem keyLt_trichotomy (a b : GenomicKey) :
    keyLt a b ∨ a = b ∨ keyLt b a := by
  obtain ⟨a1, a2, a3⟩ := a
  obtain ⟨b1, b2, b3⟩ := b
  unfold keyLt
  rcases lt_trichotomy a1 b1 with h | h | h
  · exact Or.inl (Or.inl h)
  · subst h
    rcases lt_trichotomy a2 b2 with h2 | h2 | h2
    · exact Or.inl (Or.inr ⟨rfl, Or.inl h2⟩)
    · subst h2
      rcases lt_trichotomy a3 b3 with h3 | h3 | h3
      · exact Or.inl (Or.inr ⟨rfl, Or.inr ⟨rfl, h3⟩⟩)
      · subst h3
        exact Or.inr (Or.inl rfl)
      · exact Or.inr (Or.inr (Or.inr ⟨rfl, Or.inr ⟨rfl, h3⟩⟩))
    · exact Or.inr (Or.inr (Or.inr ⟨rfl, Or.inl h2⟩))
  · exact Or.inr (Or.inr (Or.inl h))

theorem keyLt_ne {a b : GenomicKey} (h : keyLt a b) : a ≠ b := by
  intro he
  subst he
  exact keyLt_irrefl a h

theorem keyLt_asymm {a b : GenomicKey} (h1 : keyLt a b)
    (h2 : keyLt b a) : False :=
  keyLt_irrefl a (keyLt_trans h1 h2)

theorem keyLe_keyLt_trans {a b c : GenomicKey} (h1 : keyLe a b)
    (h2 : keyLt b c) : keyLt a c := by
  rcases h1 with h1 | rfl
  · exact keyLt_trans h1 h2
  · exact h2

theorem keyLt_keyLe_trans {a b c : GenomicKey} (h1 : keyLt a b)
    (h2 : keyLe b c) : keyLt a c := by
  rcases h2 with h2 | rfl
  · exact keyLt_trans h1 h2
  · exact h1

/-! ### C4: the two-pointer synchronized merge -/

theorem twoPointerF_length : ∀ (fuel : Nat) (as bs : List GenomicKey)
    (i j : Nat),
    (twoPointerF fuel as bs i j).1.length =
      (twoPointerF fuel as bs i j).2.length := by
  intro fuel
  induction fuel with
  | zero => intro as bs i j; rfl
  | succ f ih =>
    intro as bs i j
    cases as with
    | nil => rfl
    | cons a as' =>
      cases bs with
      | nil => rfl
      | cons b bs' =>
        by_cases heq : a = b
        · simp only [twoPointerF, if_pos heq, List.length_cons]
          rw [ih]
        · by_cases hlt : keyLt a b
          · simp only [twoPointerF, if_neg heq, if_pos hlt]
            exact ih as' (b :: bs') (i + 1) j
          · simp only [twoPointerF, if_neg heq, if_neg hlt]
            exact ih (a :: as') bs' i (j + 1)

theorem twoPointerF_mono : ∀ (fuel : Nat) (as bs : List GenomicKey)
    (i j : Nat),
    ((twoPointerF fuel as bs i j).1.Pairwise (· < ·) ∧
      ∀ x ∈ (twoPointerF fuel as bs i j).1, i ≤ x) ∧
    ((twoPointerF fuel as bs i j).2.Pairwise (· < ·) ∧
      ∀ x ∈ (twoPointerF fuel as bs i j).2, j ≤ x) := by
  intro fuel
  induction fuel with
  | zero =>
    intro as bs i j
    exact ⟨⟨List.Pairwise.nil, by simp [twoPointerF]⟩,
      ⟨List.Pairwise.nil, by simp [twoPointerF]⟩⟩
  | succ f ih =>
    intro as bs i j
    cases as with
    | nil =>
      exact ⟨⟨List.Pairwise.nil, by simp [twoPointerF]⟩,
        ⟨List.Pairwise.nil, by simp [twoPointerF]⟩⟩
    | cons a as' =>
      cases bs with
      | nil =>
        exact ⟨⟨List.Pairwise.nil, by simp [twoPointerF]⟩,
          ⟨List.Pairwise.nil, by simp [twoPointerF]⟩⟩
      | cons b bs' =>
        by_cases heq : a = b
        · simp only [twoPointerF, if_pos heq]
          obtain ⟨⟨hp1, hb1⟩, hp2, hb2⟩ := ih as' bs' (i + 1) (j + 1)
          refine ⟨⟨List.pairwise_cons.mpr ⟨?_, hp1⟩, ?_⟩,
            List.pairwise_cons.mpr ⟨?_, hp2⟩, ?_⟩
          · intro x hx; have := hb1 x hx; omega
          · intro x hx
            rcases List.mem_cons.mp hx with rfl | hx
            · omega
            · have := hb1 x hx; omega
          · intro x hx; have := hb2 x hx; omega
          · intro x hx
            rcases List.mem_cons.mp hx with rfl | hx
            · omega
            · have := hb2 x hx; omega
        · by_cases hlt : keyLt a b
          · simp only [twoPointerF, if_neg heq, if_pos hlt]
            obtain ⟨⟨hp1, hb1⟩, hp2, hb2⟩ := ih as' (b :: bs') (i + 1) j
            exact ⟨⟨hp1, fun x hx => by have := hb1 x hx; omega⟩, hp2, hb2⟩
          · simp only [twoPointerF, if_neg heq, if_neg hlt]
            obtain ⟨⟨hp1, hb1⟩, hp2, hb2⟩ := ih (a :: as') bs' i (j + 1)
            exact ⟨⟨hp1, hb1⟩, hp2, fun x hx => by have := hb2 x hx; omega⟩

theorem twoPointerF_spec : ∀ (fuel : Nat) (as bs : List GenomicKey)
    (i j : Nat),
    as.length + bs.length ≤ fuel →
    as.Pairwise keyLt → bs.Pairwise keyLt →
    ∀ p : Nat × Nat,
      (p ∈ (twoPointerF fuel as bs i j).1.zip
        (twoPointerF fuel as bs i j).2 ↔
      ∃ di dj, p = (i + di, j + dj) ∧
        ∃ k, as.get? di = some k ∧ bs.get? dj = some k) := by
  intro fuel
  induction fuel with
  | zero =>
    intro as bs i j hlen _ _ p
    obtain rfl : as = [] := List.eq_nil_of_length_eq_zero (by omega)
    simp [twoPointerF]
  | succ f ih =>
    intro as bs i j hlen hsa hsb p
    cases as with
    | nil => simp [twoPointerF]
    | cons a as' =>
      cases bs with
      | nil => simp [twoPointerF]
      | cons b bs' =>
        by_cases heq : a = b
        · simp only [twoPointerF, if_pos heq, List.zip_cons_cons,
            List.mem_cons]
          constructor
          · rintro (rfl | hmem)
            · exact ⟨0, 0, by simp, a, by simp, by simp [heq]⟩
            · obtain ⟨di, dj, rfl, k, hk1, hk2⟩ :=
                (ih as' bs' (i + 1) (j + 1) (by simp at hlen; omega)
                  hsa.of_cons hsb.of_cons p).1 hmem
              refine ⟨di + 1, dj + 1, ?_, k, by simpa using hk1,
                by simpa using hk2⟩
              have e1 : i + 1 + di = i + (di + 1) := by omega
              have e2 : j + 1 + dj = j + (dj + 1) := by omega
              rw [e1, e2]
          · rintro ⟨di, dj, hp, k, hk1, hk2⟩
            cases di with
            | zero =>
              cases dj with
              | zero =>
                left
                simpa using hp
              | succ dj' =>
                exfalso
                have hk : k = a := by simpa using hk1.symm
                have hmem : k ∈ bs' :=
                  List.get?_mem (by simpa using hk2)
                have := (List.pairwise_cons.mp hsb).1 k hmem
                rw [hk, heq] at this
                exact keyLt_irrefl b this
            | succ di' =>
              cases dj with
              | zero =>
                exfalso
                have hk : k = b := by simpa using hk2.symm
                have hmem : k ∈ as' :=
                  List.get?_mem (by simpa using hk1)
                have := (List.pairwise_cons.mp hsa).1 k hmem
                rw [hk, ← heq] at this
                exact keyLt_irrefl a this
              | succ dj' =>
                right
                refine (ih as' bs' (i + 1) (j + 1) (by simp at hlen; omega)
                  hsa.of_cons hsb.of_cons p).2
                  ⟨di', dj', ?_, k, by simpa using hk1, by simpa using hk2⟩
                rw [hp]
                have e1 : i + (di' + 1) = i + 1 + di' := by omega
                have e2 : j + (dj' + 1) = j + 1 + dj' := by omega
                rw [e1, e2]
        · by_cases hlt : keyLt a b
          · simp only [twoPointerF, if_neg heq, if_pos hlt]
            rw [ih as' (b :: bs') (i + 1) j (by simp at hlen ⊢; omega)
              hsa.of_cons hsb p]
            constructor
            · rintro ⟨di, dj, hp, k, hk1, hk2⟩
              refine ⟨di + 1, dj, ?_, k, by simpa using hk1, hk2⟩
              rw [hp]
              have e1 : i + 1 + di = i + (di + 1) := by omega
              rw [e1]
            · rintro ⟨di, dj, hp, k, hk1, hk2⟩
              cases di with
              | zero =>
                exfalso
                have hk : k = a := by simpa using hk1.symm
                cases dj with
                | zero =>
                  have hkb : k = b := by simpa using hk2.symm
                  exact heq (hk ▸ hkb)
                | succ dj' =>
                  have hmem : k ∈ bs' :=
                    List.get?_mem (by simpa using hk2)
                  have hba := (List.pairwise_cons.mp hsb).1 k hmem
                  rw [hk] at hba
                  exact keyLt_asymm hlt hba
              | succ di' =>
                refine ⟨di', dj, ?_, k, by simpa using hk1, hk2⟩
                rw [hp]
                have e1 : i + (di' + 1) = i + 1 + di' := by omega
                rw [e1]
          · have hgt : keyLt b a := by
              rcases keyLt_trichotomy a b with h | h | h
              · exact absurd h hlt
              · exact absurd h heq
              · exact h
            simp only [twoPointerF, if_neg heq, if_neg hlt]
            rw [ih (a :: as') bs' i (j + 1) (by simp at hlen ⊢; omega)
              hsa hsb.of_cons p]
            constructor
            · rintro ⟨di, dj, hp, k, hk1, hk2⟩
              refine ⟨di, dj + 1, ?_, k, hk1, by simpa using hk2⟩
              rw [hp]
              have e2 : j + 1 + dj = j + (dj + 1) := by omega
              rw [e2]
            · rintro ⟨di, dj, hp, k, hk1, hk2⟩
              cases dj with
              | zero =>
                exfalso
                have hk : k = b := by simpa using hk2.symm
                cases di with
                | zero =>
                  have hka : k = a := by simpa using hk1.symm
                  exact heq (hka.symm.trans hk)
                | succ di' =>
                  have hmem : k ∈ as' :=
                    List.get?_mem (by simpa using hk1)
                  have hab := (List.pairwise_cons.mp hsa).1 k hmem
                  rw [hk] at hab
                  exact keyLt_asymm hab hgt
              | succ dj' =>
                refine ⟨di, dj', ?_, k, hk1, by simpa using hk2⟩
                rw [hp]
                have e2 : j + (dj' + 1) = j + 1 + dj' := by omega
                rw [e2]

/-- C4 counterexample: with duplicate keys the two sequences are still
sorted ascending (non-strictly), the naive pairwise comparison matches
both index 0 and index 1 of the first input with index 0 of the second
(the keys at positions 1 and 0 are equal), but the two-pointer merge
returns only the pair (0, 0): the matched-pair sets differ. -/
theorem findOverLappingIndexes_counterexample :
    ([⟨1, 100, 'm'⟩, ⟨1, 100, 'm'⟩] : List GenomicKey).Pairwise keyLe ∧
    ([⟨1, 100, 'm'⟩] : List GenomicKey).Pairwise keyLe ∧
    findOverLappingIndexes [⟨1, 100, 'm'⟩, ⟨1, 100, 'm'⟩]
      [⟨1, 100, 'm'⟩] = ([0], [0]) ∧
    ([⟨1, 100, 'm'⟩, ⟨1, 100, 'm'⟩] : List GenomicKey).get? 1 =
      ([⟨1, 100, 'm'⟩] : List GenomicKey).get? 0 ∧
    (1, 0) ∉
      (findOverLappingIndexes [⟨1, 100, 'm'⟩, ⟨1, 100, 'm'⟩]
        [⟨1, 100, 'm'⟩]).1.zip
        (findOverLappingIndexes [⟨1, 100, 'm'⟩, ⟨1, 100, 'm'⟩]
          [⟨1, 100, 'm'⟩]).2 := by
  refine ⟨?_, ?_, ?_, ?_, ?_⟩ <;> decide

/-- C4 (amended): on inputs sorted strictly ascending by GenomicKey (no
duplicate keys within either input), `findOverLappingIndexes` returns
index lists of equal length, each strictly increasing (relative order
preserved), and its matched-pair set is exactly that of the naive
O(n·m) pairwise comparison: `(i, j)` is returned iff position `i` of the
first input and position `j` of the second hold equal keys. -/
theorem findOverLappingIndexes_merge_correct (one two : List GenomicKey)
    (h1 : one.Pairwise keyLt) (h2 : two.Pairwise keyLt) :
    (findOverLappingIndexes one two).1.length =
      (findOverLappingIndexes one two).2.length ∧
    (findOverLappingIndexes one two).1.Pairwise (· < ·) ∧
    (findOverLappingIndexes one two).2.Pairwise (· < ·) ∧
    ∀ i j : Nat,
      ((i, j) ∈ (findOverLappingIndexes one two).1.zip
        (findOverLappingIndexes one two).2 ↔
      ∃ k, one.get? i = some k ∧ two.get? j = some k) := by
  refine ⟨twoPointerF_length _ one two 0 0,
    ((twoPointerF_mono _ one two 0 0).1).1,
    ((twoPointerF_mono _ one two 0 0).2).1, ?_⟩
  intro i j
  unfold findOverLappingIndexes
  rw [twoPointerF_spec (one.length + two.length) one two 0 0 le_rfl
    h1 h2 (i, j)]
  constructor
  · rintro ⟨di, dj, hp, hk⟩
    simp only [Nat.zero_add, Prod.mk.injEq] at hp
    obtain ⟨rfl, rfl⟩ := hp
    exact hk
  · rintro ⟨k, hk1, hk2⟩
    exact ⟨i, j, by simp, k, hk1, hk2⟩

/-- Witness for C4 (amended) on concrete strictly sorted inputs sharing
two keys. -/
theorem findOverLappingIndexes_merge_correct_witness :
    (findOverLappingIndexes
      [⟨1, 100, 'm'⟩, ⟨1, 200, 'h'⟩, ⟨2, 5, 'm'⟩]
      [⟨1, 200, 'h'⟩, ⟨2, 5, 'm'⟩, ⟨2, 7, 'h'⟩]).1.length =
      (findOverLappingIndexes
        [⟨1, 100, 'm'⟩, ⟨1, 200, 'h'⟩, ⟨2, 5, 'm'⟩]
        [⟨1, 200, 'h'⟩, ⟨2, 5, 'm'⟩, ⟨2, 7, 'h'⟩]).2.length ∧
    (findOverLappingIndexes
      [⟨1, 100, 'm'⟩, ⟨1, 200, 'h'⟩, ⟨2, 5, 'm'⟩]
      [⟨1, 200, 'h'⟩, ⟨2, 5, 'm'⟩, ⟨2, 7, 'h'⟩]).1.Pairwise (· < ·) ∧
    (findOverLappingIndexes
      [⟨1, 100, 'm'⟩, ⟨1, 200, 'h'⟩, ⟨2, 5, 'm'⟩]
      [⟨1, 200, 'h'⟩, ⟨2, 5, 'm'⟩, ⟨2, 7, 'h'⟩]).2.Pairwise (· < ·) ∧
    ∀ i j : Nat,
      ((i, j) ∈ (findOverLappingIndexes
        [⟨1, 100, 'm'⟩, ⟨1, 200, 'h'⟩, ⟨2, 5, 'm'⟩]
        [⟨1, 200, 'h'⟩, ⟨2, 5, 'm'⟩, ⟨2, 7, 'h'⟩]).1.zip
        (findOverLappingIndexes
          [⟨1, 100, 'm'⟩, ⟨1, 200, 'h'⟩, ⟨2, 5, 'm'⟩]
          [⟨1, 200, 'h'⟩, ⟨2, 5, 'm'⟩, ⟨2, 7, 'h'⟩]).2 ↔
      ∃ k, ([⟨1, 100, 'm'⟩, ⟨1, 200, 'h'⟩, ⟨2, 5, 'm'⟩] :
          List GenomicKey).get? i = some k ∧
        ([⟨1, 200, 'h'⟩, ⟨2, 5, 'm'⟩, ⟨2, 7, 'h'⟩] :
          List GenomicKey).get? j = some k) :=
  findOverLappingIndexes_merge_correct
    [⟨1, 100, 'm'⟩, ⟨1, 200, 'h'⟩, ⟨2, 5, 'm'⟩]
    [⟨1, 200, 'h'⟩, ⟨2, 5, 'm'⟩, ⟨2, 7, 'h'⟩] (by decide) (by decide)

/-! ### C7: binary-search subsetting against the CpG allow-list -/

theorem binSearchF_step (entries : List GenomicKey) (key : GenomicKey)
    (f : Nat) (low high : Int) (h : low ≤ high) :
    binSearchF entries key (f + 1) low high =
      (if entries.getD (low + (high - low) / 2).toNat junkKey = key then
        some (low + (high - low) / 2).toNat
      else if keyLt (entries.getD (low + (high - low) / 2).toNat junkKey)
          key then
        binSearchF entries key f (low + (high - low) / 2 + 1) high
      else binSearchF entries key f low (low + (high - low) / 2 - 1)) := by
  simp only [binSearchF, if_pos h]

theorem binSearchF_correct (entries : List GenomicKey) (key : GenomicKey)
    (hs : entries.Pairwise keyLe) :
    ∀ (fuel : Nat) (low high : Int),
    0 ≤ low → high < (entries.length : Int) →
    (high - low + 1).toNat < fuel →
    ((∀ idx, binSearchF entries key fuel low high = some idx →
        entries.get? idx = some key) ∧
      (binSearchF entries key fuel low high = none →
        ∀ t : Nat, low ≤ (t : Int) → (t : Int) ≤ high →
          entries.get? t ≠ some key)) := by
  have hmono : ∀ (t u : Nat) (ht : t < entries.length)
      (hu : u < entries.length), t ≤ u →
      keyLe (entries.get ⟨t, ht⟩) (entries.get ⟨u, hu⟩) := by
    intro t u ht hu htu
    rcases Nat.eq_or_lt_of_le htu with rfl | hlt'
    · exact Or.inr rfl
    · exact List.pairwise_iff_get.mp hs ⟨t, ht⟩ ⟨u, hu⟩ hlt'
  intro fuel
  induction fuel with
  | zero =>
    intro low high _ _ hf
    omega
  | succ f ih =>
    intro low high hlow hhigh hf
    by_cases hlh : low ≤ high
    · rw [binSearchF_step entries key f low high hlh]
      generalize hmid : low + (high - low) / 2 = mid
      have hm1 : low ≤ mid := by omega
      have hm2 : mid ≤ high := by omega
      have hmnat : mid.toNat < entries.length := by omega
      have hgetD : entries.getD mid.toNat junkKey =
          entries.get ⟨mid.toNat, hmnat⟩ := by
        rw [List.getD_eq_getElem?_getD, List.getElem?_eq_getElem hmnat]
        rfl
      by_cases hk : entries.getD mid.toNat junkKey = key
      · rw [if_pos hk]
        constructor
        · intro idx h
          obtain rfl := Option.some.inj h
          rw [List.get?_eq_get hmnat]
          exact congrArg some (hgetD.symm.trans hk)
        · intro h
          simp at h
      · rw [if_neg hk]
        by_cases hlt : keyLt (entries.getD mid.toNat junkKey) key
        · rw [if_pos hlt]
          have hrec := ih (mid + 1) high (by omega) hhigh (by omega)
          refine ⟨hrec.1, ?_⟩
          intro hnone t ht1 ht2
          by_cases htm : mid + 1 ≤ (t : Int)
          · exact hrec.2 hnone t htm ht2
          · push_neg at htm
            have ht_lt : t < entries.length := by omega
            intro habs
            have hteq : entries.get ⟨t, ht_lt⟩ = key := by
              rw [List.get?_eq_get ht_lt] at habs
              exact Option.some.inj habs
            have hle : keyLe (entries.get ⟨t, ht_lt⟩)
                (entries.get ⟨mid.toNat, hmnat⟩) :=
              hmono t mid.toNat ht_lt hmnat (by omega)
            have hcontra : keyLt (entries.get ⟨t, ht_lt⟩) key :=
              keyLe_keyLt_trans hle (by rw [← hgetD]; exact hlt)
            rw [hteq] at hcontra
            exact keyLt_irrefl key hcontra
        · rw [if_neg hlt]
          have hgt : keyLt key (entries.getD mid.toNat junkKey) := by
            rcases keyLt_trichotomy (entries.getD mid.toNat junkKey) key
              with h | h | h
            · exact absurd h hlt
            · exact absurd h hk
            · exact h
          have hrec := ih low (mid - 1) hlow (by omega) (by omega)
          refine ⟨hrec.1, ?_⟩
          intro hnone t ht1 ht2
          by_cases htm : (t : Int) ≤ mid - 1
          · exact hrec.2 hnone t ht1 htm
          · push_neg at htm
            have ht_lt : t < entries.length := by omega
            intro habs
            have hteq : entries.get ⟨t, ht_lt⟩ = key := by
              rw [List.get?_eq_get ht_lt] at habs
              exact Option.some.inj habs
            have hle : keyLe (entries.get ⟨mid.toNat, hmnat⟩)
                (entries.get ⟨t, ht_lt⟩) :=
              hmono mid.toNat t hmnat ht_lt (by omega)
            have hcontra : keyLt key (entries.get ⟨t, ht_lt⟩) :=
              keyLt_keyLe_trans (by rw [← hgetD]; exact hgt) hle
            rw [hteq] at hcontra
            exact keyLt_irrefl key hcontra
    · have hstep : binSearchF entries key (f + 1) low high = none := by
        simp only [binSearchF, if_neg hlh]
      rw [hstep]
      constructor
      · intro idx h
        simp at h
      · intro _ t ht1 ht2
        exact absurd (le_trans ht1 ht2) hlh

theorem binSearch_correct (entries : List GenomicKey) (key : GenomicKey)
    (hs : entries.Pairwise keyLe) :
    (∀ idx, binSearch entries key = some idx →
      entries.get? idx = some key) ∧
    (binSearch entries key = none → key ∉ entries) := by
  have h := binSearchF_correct entries key hs (entries.length + 1) 0
    ((entries.length : Int) - 1) (by omega) (by omega) (by omega)
  unfold binSearch
  refine ⟨h.1, ?_⟩
  intro hnone hmem
  obtain ⟨t, ht⟩ := List.mem_iff_get?.mp hmem
  have ht_lt : t < entries.length := by
    by_contra hcon
    rw [List.get?_eq_none.mpr (by omega)] at ht
    exact Option.noConfusion ht
  exact h.2 hnone t (by omega) (by omega) ht

theorem binSearch_isSome_iff (entries : List GenomicKey)
    (key : GenomicKey) (hs : entries.Pairwise keyLe) :
    (binSearch entries key).isSome = true ↔ key ∈ entries := by
  constructor
  · intro hsome
    obtain ⟨idx, hidx⟩ := Option.isSome_iff_exists.mp hsome
    have := (binSearch_correct entries key hs).1 idx hidx
    exact List.get?_mem this
  · intro hmem
    cases hb : binSearch entries key with
    | none => exact absurd hmem ((binSearch_correct entries key hs).2 hb)
    | some idx => simp

theorem filterMap_filter_forall₂ {α β : Type} (f : α → Option β)
    (pp : α → Bool) (R : α → β → Prop)
    (hiff : ∀ a, (f a).isSome = true ↔ pp a = true)
    (hr : ∀ a b, f a = some b → R a b) :
    ∀ l : List α, List.Forall₂ R (l.filter pp) (l.filterMap f) := by
  intro l
  induction l with
  | nil => exact List.Forall₂.nil
  | cons a l ih =>
    rw [List.filter_cons, List.filterMap_cons]
    cases hfa : f a with
    | none =>
      have hpa : ¬pp a = true := by
        intro hpa
        have := (hiff a).mpr hpa
        rw [hfa] at this
        simp at this
      rw [if_neg hpa]
      exact ih
    | some b =>
      have hpa : pp a = true := (hiff a).mp (by rw [hfa]; rfl)
      rw [if_pos hpa]
      exact List.Forall₂.cons (hr a b hfa) ih

/-- C7: on a dataset sorted (non-strictly) by GenomicKey and a non-empty
allow-list, `findIndexesInCpGList` throws the "no overlap" error exactly
when no allow-list entry has a key match in the dataset; otherwise it
returns, in allow-list order, one matching dataset index per allow-list
entry that has a match (entries without a match are skipped without
error). -/
theorem findIndexesInCpGList_spec (cpgs entries : List GenomicKey)
    (hs : entries.Pairwise keyLe) (_hne : cpgs ≠ []) :
    ((∃ msg, findIndexesInCpGList cpgs entries = Except.error msg) ↔
      ∀ c ∈ cpgs, c ∉ entries) ∧
    (∀ l, findIndexesInCpGList cpgs entries = Except.ok l →
      List.Forall₂ (fun c idx => entries.get? idx = some c)
        (cpgs.filter (fun c => decide (c ∈ entries))) l) := by
  have hforall := filterMap_filter_forall₂
    (fun c => binSearch entries c) (fun c => decide (c ∈ entries))
    (fun c idx => entries.get? idx = some c)
    (fun c => by rw [binSearch_isSome_iff entries c hs, decide_eq_true_eq])
    (fun c idx h => (binSearch_correct entries c hs).1 idx h) cpgs
  have hempty_iff :
      cpgs.filterMap (fun c => binSearch entries c) = [] ↔
        ∀ c ∈ cpgs, c ∉ entries := by
    rw [List.filterMap_eq_nil_iff]
    constructor
    · intro hall c hc hmem
      have hnone := hall c hc
      exact absurd hmem ((binSearch_correct entries c hs).2 hnone)
    · intro hall c hc
      cases hb : binSearch entries c with
      | none => rfl
      | some idx =>
        have := List.get?_mem ((binSearch_correct entries c hs).1 idx hb)
        exact absurd this (hall c hc)
  constructor
  · constructor
    · rintro ⟨msg, hmsg⟩
      unfold findIndexesInCpGList at hmsg
      by_cases hemp :
          (cpgs.filterMap (fun c => binSearch entries c)).isEmpty = true
      · exact hempty_iff.mp (List.isEmpty_iff.mp hemp)
      · rw [if_neg hemp] at hmsg
        exact Except.noConfusion hmsg
    · intro hall
      refine ⟨"No row overlap with cpg_list.", ?_⟩
      unfold findIndexesInCpGList
      rw [if_pos (List.isEmpty_iff.mpr (hempty_iff.mpr hall))]
  · intro l hl
    unfold findIndexesInCpGList at hl
    by_cases hemp :
        (cpgs.filterMap (fun c => binSearch entries c)).isEmpty = true
    · rw [if_pos hemp] at hl
      exact Except.noConfusion hl
    · rw [if_neg hemp] at hl
      obtain rfl := Except.ok.inj hl
      exact hforall

/-- Witness for C7 on a concrete sorted dataset and an allow-list with
one matched and one unmatched entry. -/
theorem findIndexesInCpGList_spec_witness :
    ((∃ msg, findIndexesInCpGList
        [⟨1, 200, 'h'⟩, ⟨3, 1, 'm'⟩]
        [⟨1, 100, 'm'⟩, ⟨1, 200, 'h'⟩, ⟨2, 50, 'm'⟩] =
        Except.error msg) ↔
      ∀ c ∈ ([⟨1, 200, 'h'⟩, ⟨3, 1, 'm'⟩] : List GenomicKey),
        c ∉ ([⟨1, 100, 'm'⟩, ⟨1, 200, 'h'⟩, ⟨2, 50, 'm'⟩] :
          List GenomicKey)) ∧
    (∀ l, findIndexesInCpGList
        [⟨1, 200, 'h'⟩, ⟨3, 1, 'm'⟩]
        [⟨1, 100, 'm'⟩, ⟨1, 200, 'h'⟩, ⟨2, 50, 'm'⟩] = Except.ok l →
      List.Forall₂ (fun c idx =>
        ([⟨1, 100, 'm'⟩, ⟨1, 200, 'h'⟩, ⟨2, 50, 'm'⟩] :
          List GenomicKey).get? idx = some c)
        (([⟨1, 200, 'h'⟩, ⟨3, 1, 'm'⟩] : List GenomicKey).filter
          (fun c => decide (c ∈ ([⟨1, 100, 'm'⟩, ⟨1, 200, 'h'⟩,
            ⟨2, 50, 'm'⟩] : List GenomicKey)))) l) :=
  findIndexesInCpGList_spec [⟨1, 200, 'h'⟩, ⟨3, 1, 'm'⟩]
    [⟨1, 100, 'm'⟩, ⟨1, 200, 'h'⟩, ⟨2, 50, 'm'⟩] (by decide) (by decide)

end HyLoRD
